import Mathlib

/-!
Verification of the fake-TCP tunnel transport core (`internal/pcap/fragment.go`
and `internal/pcap/conn.go`): a shallow embedding of the IPv4
fragmentation/reassembly subsystem and of the connection state machine,
together with theorems about the specified properties.

Modelling conventions.

* Machine integers are `Nat` with explicit `% 65536` (uint16) and
  `% 4294967296` (uint32) where the Go code can overflow.
* Packet parsing and serialisation (`Serialize`, `ParsePacket`,
  `PacketIndicator` accessors, gopacket layers) are external collaborators of
  the transport core.  A wire frame is therefore modelled by the data the core
  reads back through those accessors: its IPv4 fragment offset (in 8-byte
  units), its More-Fragments flag and its network payload bytes
  (structure `Pkt` below).  `Serialize` followed by a re-parse is the
  identity on this view.
* Byte values are irrelevant to all the control flow involved, so a payload is
  a `List Nat`.
-/

/-- Modelled from the spec: the fragment-relevant view of a parsed packet
(`PacketIndicator`): `FragOffset()` (8-byte units, a uint16), `MoreFragments()`
and `NetworkPayload()`.  These accessors live in the packet-parsing
collaborator, outside the transport core. -/
structure Pkt where
  off : Nat
  mf : Bool
  payload : List Nat
deriving DecidableEq, Repr

/-- Modelled from the spec: `PacketIndicator.IsFrag()` — a packet is a fragment
iff its More-Fragments flag is set or its fragment offset is nonzero. -/
def Pkt.isFrag (k : Pkt) : Bool := k.mf || decide (k.off ≠ 0)

/-- The per-iteration fragment body length computed by the loop of
`CreateFragmentPackets` (fragment.go lines 288-301): `length` after the
`min`, the 8-byte alignment rule and the minimum-tail rule, for cursor `i`,
total network payload length `L`, serialised network header length `hdr` and
fragment size (MTU) `mtu`. -/
def fragLen (hdr mtu L i : Nat) : Nat :=
  let len0 := min (mtu - hdr) (L - i)
  let rem0 := L - i - len0
  let len1 := if 0 < rem0 then len0 / 8 * 8 else len0
  let rem1 := if 0 < rem0 then L - i - len1 else rem0
  if 0 < rem1 ∧ rem1 < 8 then len1 - 8 else len1

/-- The `remain` value the same iteration ends with; in the Go code it always
equals `len(networkLayerPayload) - i - length` for the final `length`. -/
def fragRem (hdr mtu L i : Nat) : Nat := L - i - fragLen hdr mtu L i

/-- The fragment loop of `CreateFragmentPackets` (fragment.go lines 283-332).
Each iteration emits the frame whose IPv4 header carries fragment offset
`i / 8` (a uint16, hence `% 65536`), MF set iff `remain > 0`, and the payload
slice `networkLayerPayload[i : i+length]`, then advances `i` by `length`.
The Go loop can fail to advance (`length = 0`), so the embedding carries
fuel; `none` means the loop did not finish within the given fuel. -/
def fragLoop (hdr mtu : Nat) (p : List Nat) : Nat → List Pkt → Nat → Option (List Pkt)
  | _, _, 0 => none
  | i, acc, fuel + 1 =>
    if i < p.length then
      let len := fragLen hdr mtu p.length i
      fragLoop hdr mtu p (i + len)
        (acc ++ [⟨i / 8 % 65536, decide (0 < fragRem hdr mtu p.length i), (p.drop i).take len⟩])
        fuel
    else some acc

/-- `CreateFragmentPackets` (fragment.go lines 240-356) on the abstract frame
view: if serialised header plus network payload exceed the fragment size, run
the fragment loop, otherwise emit the single whole frame (offset 0, MF clear). -/
def createFragmentPackets (hdr mtu : Nat) (p : List Nat) (fuel : Nat) : Option (List Pkt) :=
  if mtu < hdr + p.length then fragLoop hdr mtu p 0 [] fuel
  else some [⟨0, false, p⟩]

/-- `CreateFragmentPackets` with fuel `p.length + 1`.  A run of the Go loop
that terminates advances the cursor by at least one byte per iteration (an
iteration with `length = 0` repeats the same state forever), so it performs at
most `p.length` iterations: this fuel is enough for every terminating run, and
`none` means the Go loop never terminates (or indexes a slice negatively). -/
def createFragments (hdr mtu : Nat) (p : List Nat) : Option (List Pkt) :=
  createFragmentPackets hdr mtu p (p.length + 1)

/-- `fragIndicator` (fragment.go lines 19-24): running `length` and `offset`
are uint16; `frags` is the accumulated, offset-sorted fragment list.
(`lastSeen` only feeds the time-based eviction, which is outside this model:
the defragmenter deadline defaults to 0, disabling eviction.) -/
structure FragIndicator where
  length : Nat
  offset : Nat
  frags : List Pkt
deriving DecidableEq, Repr

/-- `newFragIndicator` (fragment.go lines 26-31). -/
def newFragIndicator : FragIndicator := ⟨0, 0, []⟩

/-- The comparison `frags[i].FragOffset() < frags[j].FragOffset()` used by
`sort.Slice` in `fragIndicator.append`, as a sorting order. -/
def fragLe (a b : Pkt) : Prop := a.off ≤ b.off

instance : DecidableRel fragLe := fun a b => inferInstanceAs (Decidable (a.off ≤ b.off))

instance : IsTotal Pkt fragLe := ⟨fun a b => Nat.le_total a.off b.off⟩

instance : IsTrans Pkt fragLe := ⟨fun _ _ _ hab hbc => Nat.le_trans hab hbc⟩

/-- `fragIndicator.append` (fragment.go lines 33-51): push the fragment, add
its payload length to `length` if MF is set (uint16 arithmetic), otherwise
record its offset as the final-fragment offset, and re-sort `frags` by
ascending fragment offset.  (`sort.Slice` is an arbitrary comparison sort; any
sort by the same key is an equivalent model.) -/
def FragIndicator.append (s : FragIndicator) (k : Pkt) : FragIndicator :=
  { length := if k.mf then (s.length + k.payload.length % 65536) % 65536 else s.length
    offset := if k.mf then s.offset else k.off
    frags := List.insertionSort fragLe (s.frags ++ [k]) }

/-- `fragIndicator.isCompleted` (fragment.go lines 53-55). -/
def FragIndicator.isCompleted (s : FragIndicator) : Bool := s.length / 8 == s.offset

/-- `fragIndicator.concatenate` (fragment.go lines 57-119) on the frame view:
fails on incomplete fragments, otherwise clones the first fragment's IPv4
header with MF and offset cleared and concatenates the network payloads in
stored (offset-sorted) order; the reassembled packet is abstracted by its
network payload. -/
def FragIndicator.concatenate (s : FragIndicator) : Option (List Nat) :=
  if s.isCompleted then some (s.frags.foldl (fun acc k => acc ++ k.payload) []) else none

/-- `EasyDefragmenter.AppendOriginal` (fragment.go lines 140-185) for a single
fragment flow with the default deadline 0 (no time-based eviction).  The flow
slot is `Option FragIndicator`: a missing or nil map entry is `none` and is
replaced by a fresh indicator.  Non-fragments pass through unchanged
(abstracted by their payload); a completed flow is cleared and the
concatenated packet returned. -/
def defragAppend (st : Option FragIndicator) (k : Pkt) : Option FragIndicator × Option (List Nat) :=
  if k.isFrag then
    let s := (st.getD newFragIndicator).append k
    if s.isCompleted then (none, s.concatenate) else (some s, none)
  else (st, some k.payload)

/-- Feeding a list of packets one by one to `EasyDefragmenter.Append`;
returns the final flow state and the per-call results (`none` = the call
returned no packet). -/
def defragRun (st : Option FragIndicator) : List Pkt → Option FragIndicator × List (Option (List Nat))
  | [] => (st, [])
  | k :: ks =>
    let r := defragAppend st k
    let rest := defragRun r.1 ks
    (rest.1, r.2 :: rest.2)

/-- Specification-side: total payload bytes carried by non-final (MF set)
fragments of a list — the exact quantity `fragIndicator.length` accumulates. -/
def nfSum : List Pkt → Nat
  | [] => 0
  | k :: ks => (if k.mf then k.payload.length else 0) + nfSum ks

/-- Specification-side: total payload bytes of a fragment list. -/
def totalLen : List Pkt → Nat
  | [] => 0
  | k :: ks => k.payload.length + totalLen ks

/-- Specification-side: the fragment offset of the last final (MF clear)
fragment of a list, 0 if none was seen — the value `fragIndicator.offset`
holds after appending the list in order. -/
def lastFinalOff (l : List Pkt) : Nat :=
  ((l.filter (fun k => !k.mf)).map (fun k => k.off)).getLastD 0

/-- The shape of the fragment lists the loop of `CreateFragmentPackets`
produces from cursor `i`: a run of MF-set fragments whose body lengths are
positive multiples of 8, closed by one final fragment of at least 8 bytes
reaching the end of the payload; each fragment carries offset `i / 8` and the
payload slice starting at its cursor. -/
inductive FragChain (p : List Nat) : Nat → List Pkt → Prop where
  | last : ∀ i len, 8 ≤ len → i + len = p.length →
      FragChain p i [⟨i / 8 % 65536, false, (p.drop i).take len⟩]
  | cons : ∀ i len ks, 8 ≤ len → 8 ∣ len → i + len < p.length → FragChain p (i + len) ks →
      FragChain p i (⟨i / 8 % 65536, true, (p.drop i).take len⟩ :: ks)

/-! ### Arithmetic facts about one iteration of the fragment loop -/

/-- A fragment body never exceeds the bytes left after the cursor. -/
lemma fragLen_le (hdr mtu L i : Nat) : fragLen hdr mtu L i ≤ L - i := by
  simp only [fragLen]
  have h1 : min (mtu - hdr) (L - i) ≤ L - i := Nat.min_le_right _ _
  have h2 : min (mtu - hdr) (L - i) / 8 * 8 ≤ min (mtu - hdr) (L - i) :=
    Nat.div_mul_le_self _ _
  split_ifs <;> omega

/-- When the iteration ends with `remain = 0` it took all remaining bytes. -/
lemma fragLen_of_rem_zero (hdr mtu L i : Nat) (h : fragRem hdr mtu L i = 0) :
    fragLen hdr mtu L i = L - i := by
  have := fragLen_le hdr mtu L i
  simp only [fragRem] at h
  omega

/-- An iteration that makes progress and still leaves bytes behind produced an
8-byte-aligned body of at least 8 bytes and left at least 8 bytes over. -/
lemma fragLen_pos_props (hdr mtu L i : Nat) (hrem : 0 < fragRem hdr mtu L i)
    (hpos : 0 < fragLen hdr mtu L i) :
    8 ∣ fragLen hdr mtu L i ∧ 8 ≤ fragLen hdr mtu L i ∧ 8 ≤ fragRem hdr mtu L i := by
  simp only [fragRem, fragLen] at *
  have h1 : min (mtu - hdr) (L - i) ≤ mtu - hdr := Nat.min_le_left _ _
  have h2 : min (mtu - hdr) (L - i) ≤ L - i := Nat.min_le_right _ _
  have h3 : min (mtu - hdr) (L - i) / 8 * 8 ≤ min (mtu - hdr) (L - i) :=
    Nat.div_mul_le_self _ _
  have h4 : 8 ∣ min (mtu - hdr) (L - i) / 8 * 8 := Dvd.intro_left _ rfl
  split_ifs at * <;> omega

/-- If the fragment size cannot even cover the remaining bytes, the iteration
leaves a nonzero remainder (its MF flag is set). -/
lemma fragRem_pos_of_lt (hdr mtu L i : Nat) (h : mtu - hdr < L - i) :
    0 < fragRem hdr mtu L i := by
  simp only [fragRem, fragLen]
  have h1 : min (mtu - hdr) (L - i) ≤ mtu - hdr := Nat.min_le_left _ _
  have h3 : min (mtu - hdr) (L - i) / 8 * 8 ≤ min (mtu - hdr) (L - i) :=
    Nat.div_mul_le_self _ _
  split_ifs <;> omega

/-- With at least 16 bytes of room per fragment, every iteration that starts
with at least 8 remaining bytes (or with more bytes than fit) advances the
cursor by at least 8. -/
lemma fragLen_progress (hdr mtu L i : Nat) (h16 : 16 ≤ mtu - hdr) (hi : i < L)
    (hP : 8 ≤ L - i ∨ mtu - hdr < L - i) : 8 ≤ fragLen hdr mtu L i := by
  simp only [fragLen]
  have h1 : min (mtu - hdr) (L - i) ≤ mtu - hdr := Nat.min_le_left _ _
  have h2 : min (mtu - hdr) (L - i) ≤ L - i := Nat.min_le_right _ _
  have h3 : min (mtu - hdr) (L - i) / 8 * 8 ≤ min (mtu - hdr) (L - i) :=
    Nat.div_mul_le_self _ _
  have h5 : min (mtu - hdr) (L - i) = mtu - hdr ∨ min (mtu - hdr) (L - i) = L - i := by
    rcases Nat.le_total (mtu - hdr) (L - i) with h | h
    · exact Or.inl (Nat.min_eq_left h)
    · exact Or.inr (Nat.min_eq_right h)
  split_ifs <;> omega

/-- A loop iteration with `length = 0` repeats its state: the loop never
terminates from such a state (fragment.go can only exit the loop by moving
`i` past the end of the payload). -/
lemma fragLoop_stuck (hdr mtu : Nat) (p : List Nat) (i : Nat) (hi : i < p.length)
    (h0 : fragLen hdr mtu p.length i = 0) :
    ∀ fuel acc, fragLoop hdr mtu p i acc fuel = none := by
  intro fuel
  induction fuel with
  | zero => intro acc; rfl
  | succ n ih =>
    intro acc
    simp only [fragLoop, if_pos hi, h0, Nat.add_zero]
    exact ih _

/-- A fragment chain is never empty. -/
lemma FragChain.ne_nil {p : List Nat} {i : Nat} {ks : List Pkt} (h : FragChain p i ks) :
    ks ≠ [] := by
  cases h <;> simp

/-- A fragment chain starts at least 8 bytes before the end of the payload. -/
lemma FragChain.start_le {p : List Nat} {i : Nat} {ks : List Pkt} (h : FragChain p i ks) :
    i + 8 ≤ p.length := by
  cases h with
  | last i len h8 hend => omega
  | cons i len ks h8 _ hlt _ => omega

/-- With at least 16 bytes of room per fragment the loop terminates within
fuel `p.length - i + 1`: each iteration advances the cursor by at least 8. -/
lemma fragLoop_some (hdr mtu : Nat) (p : List Nat) (h16 : 16 ≤ mtu - hdr) :
    ∀ fuel i acc, i < p.length → (8 ≤ p.length - i ∨ mtu - hdr < p.length - i) →
      p.length - i < fuel → (fragLoop hdr mtu p i acc fuel).isSome := by
  intro fuel
  induction fuel with
  | zero => intro i acc hi _ hf; omega
  | succ n ih =>
    intro i acc hi hP hf
    have hlen : 8 ≤ fragLen hdr mtu p.length i := fragLen_progress hdr mtu p.length i h16 hi hP
    have hle : fragLen hdr mtu p.length i ≤ p.length - i := fragLen_le hdr mtu p.length i
    simp only [fragLoop, if_pos hi]
    by_cases hend : i + fragLen hdr mtu p.length i < p.length
    · have hrem : 0 < fragRem hdr mtu p.length i := by
        simp only [fragRem]; omega
      have hrem8 : 8 ≤ fragRem hdr mtu p.length i :=
        (fragLen_pos_props hdr mtu p.length i hrem (by omega)).2.2
      exact ih _ _ hend (Or.inl (by simp only [fragRem] at hrem8; omega)) (by omega)
    · have hexact : i + fragLen hdr mtu p.length i = p.length := by omega
      have hn : 0 < n := by omega
      obtain ⟨m, rfl⟩ : ∃ m, n = m + 1 := ⟨n - 1, by omega⟩
      simp only [fragLoop, hexact, Nat.lt_irrefl, if_neg (by omega : ¬ p.length < p.length)]
      rfl

/-- Soundness of the fragment loop: a terminating run starting at cursor `i`
(with at least 8 bytes left, or more bytes left than fit in one fragment)
appends a fragment chain for the rest of the payload; when the very first
iteration cannot take everything, the chain has at least two fragments. -/
lemma fragLoop_chain (hdr mtu : Nat) (p : List Nat) :
    ∀ fuel i acc res, fragLoop hdr mtu p i acc fuel = some res → i < p.length →
      (8 ≤ p.length - i ∨ mtu - hdr < p.length - i) →
      ∃ ks, res = acc ++ ks ∧ FragChain p i ks ∧
        (mtu - hdr < p.length - i → 2 ≤ ks.length) := by
  intro fuel
  induction fuel with
  | zero => intro i acc res h; exact absurd h (by simp [fragLoop])
  | succ n ih =>
    intro i acc res h hi hP
    simp only [fragLoop, if_pos hi] at h
    by_cases h0 : fragLen hdr mtu p.length i = 0
    · rw [h0, Nat.add_zero] at h
      exact absurd h (by rw [fragLoop_stuck hdr mtu p i hi h0 n _]; simp)
    by_cases hrem : fragRem hdr mtu p.length i = 0
    · have hlen : fragLen hdr mtu p.length i = p.length - i :=
        fragLen_of_rem_zero hdr mtu p.length i hrem
      have h8 : 8 ≤ fragLen hdr mtu p.length i := by
        rcases hP with h8' | hlt
        · omega
        · exact absurd (fragRem_pos_of_lt hdr mtu p.length i hlt) (by omega)
      have hend : i + fragLen hdr mtu p.length i = p.length := by omega
      rw [hend] at h
      obtain ⟨m, rfl⟩ : ∃ m, n = m + 1 := by
        rcases n with _ | m
        · exact absurd h (by simp [fragLoop])
        · exact ⟨m, rfl⟩
      simp only [fragLoop] at h
      rw [if_neg (Nat.lt_irrefl p.length)] at h
      rw [Option.some_inj] at h
      refine ⟨[⟨i / 8 % 65536, decide (0 < fragRem hdr mtu p.length i), (p.drop i).take
        (fragLen hdr mtu p.length i)⟩], ?_, ?_, ?_⟩
      · rw [← h]
      · have : decide (0 < fragRem hdr mtu p.length i) = false := by
          rw [hrem]; simp
        rw [this]
        exact FragChain.last i (fragLen hdr mtu p.length i) h8 hend
      · intro hlt
        exact absurd (fragRem_pos_of_lt hdr mtu p.length i hlt) (by omega)
    · have hprops := fragLen_pos_props hdr mtu p.length i (by omega) (by omega)
      have hend : i + fragLen hdr mtu p.length i < p.length := by
        have := hprops.2.2
        simp only [fragRem] at this
        omega
      obtain ⟨ks', hres, hch, _⟩ := ih _ _ _ h hend
        (Or.inl (by have := hprops.2.2; simp only [fragRem] at this; omega))
      have hmf : decide (0 < fragRem hdr mtu p.length i) = true := by
        simp only [decide_eq_true_eq]
        omega
      refine ⟨⟨i / 8 % 65536, decide (0 < fragRem hdr mtu p.length i), (p.drop i).take
        (fragLen hdr mtu p.length i)⟩ :: ks', ?_, ?_, ?_⟩
      · rw [hres]; simp
      · rw [hmf]
        exact FragChain.cons i (fragLen hdr mtu p.length i) ks' hprops.2.1 hprops.1 hend hch
      · intro _
        have := hch.ne_nil
        cases ks' with
        | nil => exact absurd rfl this
        | cons a l => simp

/-- Any run of `CreateFragmentPackets` (any fuel) that yields at least two
fragments was in the fragmenting branch and its output is a fragment chain
over the whole network payload. -/
lemma createFragmentPackets_chain (hdr mtu : Nat) (p : List Nat) (fuel : Nat) (res : List Pkt)
    (h : createFragmentPackets hdr mtu p fuel = some res) (h2 : 2 ≤ res.length) :
    FragChain p 0 res ∧ mtu < hdr + p.length := by
  simp only [createFragmentPackets] at h
  split_ifs at h with hbr
  · by_cases hL : 0 < p.length
    · obtain ⟨ks, hres, hch, _⟩ := fragLoop_chain hdr mtu p fuel 0 [] res h (by omega)
        (by right; omega)
      rw [hres, List.nil_append]
      exact ⟨hch, hbr⟩
    · have hL0 : p.length = 0 := by omega
      exfalso
      rcases fuel with _ | m
      · exact absurd h (by simp [fragLoop])
      · simp only [fragLoop, hL0] at h
        rw [if_neg (Nat.lt_irrefl 0), Option.some_inj] at h
        rw [← h] at h2
        simp at h2
  · rw [Option.some_inj] at h
    rw [← h] at h2
    simp at h2

/-- Every payload slice a fragment chain carries fits in the source payload. -/
lemma FragChain.payload_le {p : List Nat} :
    ∀ {i : Nat} {ks : List Pkt}, FragChain p i ks → ∀ k ∈ ks, k.payload.length ≤ p.length := by
  intro i ks h
  induction h with
  | last i len h8 hend =>
    intro k hk
    rw [List.mem_singleton] at hk
    subst hk
    simp only [List.length_take, List.length_drop]
    omega
  | cons i len ks h8 hdvd hlt hch ih =>
    intro k hk
    rcases List.mem_cons.mp hk with rfl | hk
    · simp only [List.length_take, List.length_drop]
      omega
    · exact ih k hk

/-- Structure of a fragment chain: MF-set fragments with positive 8-divisible
body lengths, closed by a single final fragment whose offset is the byte count
of everything before it divided by 8, the whole chain covering the payload
from `i` to the end. -/
lemma FragChain.decomp {p : List Nat} :
    ∀ {i : Nat} {ks : List Pkt}, FragChain p i ks →
      ∃ gs lf, ks = gs ++ [lf] ∧ lf.mf = false ∧
        lf.off = (i + nfSum ks) / 8 % 65536 ∧ 8 ≤ lf.payload.length ∧ 8 ∣ nfSum ks ∧
        i + nfSum ks + lf.payload.length = p.length ∧
        ∀ g ∈ gs, g.mf = true ∧ 8 ∣ g.payload.length ∧ 8 ≤ g.payload.length := by
  intro i ks h
  induction h with
  | last i len h8 hend =>
    have h1 : nfSum [(⟨i / 8 % 65536, false, (p.drop i).take len⟩ : Pkt)] = 0 := by
      simp [nfSum]
    refine ⟨[], _, rfl, rfl, ?_, ?_, ?_, ?_, by simp⟩
    · rw [h1, Nat.add_zero]
    · simp only [List.length_take, List.length_drop]
      omega
    · rw [h1]
      exact ⟨0, rfl⟩
    · rw [h1, Nat.add_zero]
      simp only [List.length_take, List.length_drop]
      omega
  | cons i len ks h8 hdvd hlt hch ih =>
    obtain ⟨gs, lf, hks, hmf, hoff, hlen, hdvd2, hsum, hgs⟩ := ih
    have hlenhd : (List.take len (List.drop i p)).length = len := by
      simp only [List.length_take, List.length_drop]
      omega
    refine ⟨⟨i / 8 % 65536, true, List.take len (List.drop i p)⟩ :: gs, lf, by rw [hks]; rfl,
      hmf, ?_, hlen, ?_, ?_, ?_⟩
    · rw [hoff]
      have : nfSum (⟨i / 8 % 65536, true, List.take len (List.drop i p)⟩ :: ks) =
          len + nfSum ks := by
        simp [nfSum, hlenhd]
      rw [this]
      congr 2
      omega
    · have : nfSum (⟨i / 8 % 65536, true, List.take len (List.drop i p)⟩ :: ks) =
          len + nfSum ks := by
        simp [nfSum, hlenhd]
      rw [this]
      exact Nat.dvd_add hdvd hdvd2
    · have : nfSum (⟨i / 8 % 65536, true, List.take len (List.drop i p)⟩ :: ks) =
          len + nfSum ks := by
        simp [nfSum, hlenhd]
      rw [this]
      omega
    · intro g hg
      rcases List.mem_cons.mp hg with rfl | hg
      · exact ⟨rfl, by rw [hlenhd]; exact hdvd, by rw [hlenhd]; exact h8⟩
      · exact hgs g hg

/-- For an IPv4-sized payload (at most 65535 bytes) the offsets along a
fragment chain are strictly increasing, and all of them at least `i / 8`. -/
lemma FragChain.pairwise {p : List Nat} (hp : p.length ≤ 65535) :
    ∀ {i : Nat} {ks : List Pkt}, FragChain p i ks →
      ks.Pairwise (fun a b => a.off < b.off) ∧ ∀ k ∈ ks, i / 8 ≤ k.off := by
  intro i ks h
  induction h with
  | last i len h8 hend =>
    have hi8 : i / 8 % 65536 = i / 8 := Nat.mod_eq_of_lt (by
      have : i / 8 ≤ i := Nat.div_le_self i 8
      omega)
    refine ⟨List.pairwise_singleton _ _, ?_⟩
    intro k hk
    rw [List.mem_singleton] at hk
    subst hk
    simp [hi8]
  | cons i len ks h8 hdvd hlt hch ih =>
    have hi8 : i / 8 % 65536 = i / 8 := Nat.mod_eq_of_lt (by
      have : i / 8 ≤ i := Nat.div_le_self i 8
      omega)
    have hdivlt : i / 8 < (i + len) / 8 := by
      have h1 : (i + 8) / 8 = i / 8 + 1 := Nat.add_div_right i (by omega)
      have h2 : (i + 8) / 8 ≤ (i + len) / 8 := Nat.div_le_div_right (by omega)
      omega
    refine ⟨List.pairwise_cons.mpr ⟨?_, ih.1⟩, ?_⟩
    · intro b hb
      have := ih.2 b hb
      simp only [hi8]
      omega
    · intro k hk
      rcases List.mem_cons.mp hk with rfl | hk
      · simp [hi8]
      · have := ih.2 k hk
        omega

/-! ### List facts for the defragmenter invariant -/

lemma nfSum_append (l1 l2 : List Pkt) : nfSum (l1 ++ l2) = nfSum l1 + nfSum l2 := by
  induction l1 with
  | nil => simp [nfSum]
  | cons k ks ih => simp [nfSum, ih]; omega

lemma nfSum_perm {l1 l2 : List Pkt} (h : l1.Perm l2) : nfSum l1 = nfSum l2 := by
  induction h with
  | nil => rfl
  | cons x _ ih => simp [nfSum, ih]
  | swap x y l => simp [nfSum]; omega
  | trans _ _ ih1 ih2 => omega

lemma totalLen_eq_join (l : List Pkt) :
    totalLen l = ((l.map fun k => k.payload).flatten).length := by
  induction l with
  | nil => rfl
  | cons k ks ih => simp [totalLen, ih]

lemma nfSum_le_totalLen (l : List Pkt) : nfSum l ≤ totalLen l := by
  induction l with
  | nil => exact Nat.le_refl 0
  | cons k ks ih =>
    simp only [nfSum, totalLen]
    split_ifs <;> omega

lemma nfSum_sublist_le {l1 l2 : List Pkt} (h : l1.Sublist l2) : nfSum l1 ≤ nfSum l2 := by
  induction h with
  | slnil => exact Nat.le_refl 0
  | cons a _ ih => simp only [nfSum]; omega
  | cons₂ a _ ih => simp only [nfSum]; omega

/-- A sublist missing a designated element of the big list also misses its
`nfSum` contribution. -/
lemma nfSum_sublist_missing {l F : List Pkt} (h : l.Sublist F) {x : Pkt} (hx : x ∈ F)
    (hnx : x ∉ l) : nfSum l + (if x.mf then x.payload.length else 0) ≤ nfSum F := by
  induction h with
  | slnil => exact absurd hx (List.not_mem_nil x)
  | @cons l' F' a h' ih =>
    rcases List.mem_cons.mp hx with rfl | hx'
    · have := nfSum_sublist_le h'
      simp only [nfSum]
      omega
    · have := ih hx' hnx
      simp only [nfSum]
      omega
  | @cons₂ l' F' a h' ih =>
    have hxa : x ≠ a := fun he => hnx (he ▸ List.mem_cons_self a l')
    have hx' : x ∈ F' := by
      rcases List.mem_cons.mp hx with rfl | hx'
      · exact absurd rfl hxa
      · exact hx'
    have hnx' : x ∉ l' := fun hc => hnx (List.mem_cons_of_mem a hc)
    have := ih hx' hnx'
    simp only [nfSum]
    omega

/-- A strict sublist of a duplicate-free list misses some element. -/
lemma sublist_lt_missing {l F : List Pkt} (h : l.Sublist F) (hn : F.Nodup)
    (hlen : l.length < F.length) : ∃ x, x ∈ F ∧ x ∉ l := by
  induction h with
  | slnil => simp at hlen
  | @cons l' F' a h' ih =>
    by_cases ha : a ∈ l'
    · exact absurd (h'.subset ha) (List.nodup_cons.mp hn).1
    · exact ⟨a, List.mem_cons_self a F', ha⟩
  | @cons₂ l' F' a h' ih =>
    obtain ⟨x, hxF, hxl⟩ := ih (List.nodup_cons.mp hn).2 (by simpa using hlen)
    have hxa : x ≠ a := fun he => (List.nodup_cons.mp hn).1 (he ▸ hxF)
    exact ⟨x, List.mem_cons_of_mem a hxF, by
      intro hc
      rcases List.mem_cons.mp hc with rfl | hc
      · exact hxa rfl
      · exact hxl hc⟩

lemma nfSum_member_le {S : List Pkt} {k : Pkt} (hk : k ∈ S) (hmf : k.mf = true) :
    k.payload.length ≤ nfSum S := by
  induction S with
  | nil => exact absurd hk (List.not_mem_nil k)
  | cons a l ih =>
    simp only [nfSum]
    rcases List.mem_cons.mp hk with rfl | hk'
    · rw [if_pos hmf]
      omega
    · have := ih hk'
      omega

lemma nfSum_dvd {S : List Pkt} (h : ∀ k ∈ S, k.mf = true → 8 ∣ k.payload.length) :
    8 ∣ nfSum S := by
  induction S with
  | nil => exact ⟨0, rfl⟩
  | cons a l ih =>
    simp only [nfSum]
    have h1 := ih fun k hk => h k (List.mem_cons_of_mem a hk)
    by_cases ha : a.mf = true
    · rw [if_pos ha]
      exact Nat.dvd_add (h a (List.mem_cons_self a l) ha) h1
    · rw [if_neg ha, Nat.zero_add]
      exact h1

lemma lastFinalOff_nil : lastFinalOff [] = 0 := rfl

lemma lastFinalOff_append_mf (S : List Pkt) (k : Pkt) (h : k.mf = true) :
    lastFinalOff (S ++ [k]) = lastFinalOff S := by
  simp only [lastFinalOff, List.filter_append]
  have : List.filter (fun k => !k.mf) [k] = [] := by
    simp [List.filter, h]
  rw [this, List.append_nil]

lemma lastFinalOff_append_final (S : List Pkt) (k : Pkt) (h : k.mf = false) :
    lastFinalOff (S ++ [k]) = k.off := by
  simp only [lastFinalOff, List.filter_append]
  have : List.filter (fun k => !k.mf) [k] = [k] := by
    simp [List.filter, h]
  rw [this, List.map_append, List.map_singleton, List.getLastD_concat]

lemma lastFinalOff_all_mf {S : List Pkt} (h : ∀ k ∈ S, k.mf = true) :
    lastFinalOff S = 0 := by
  have : List.filter (fun k => !k.mf) S = [] := by
    rw [List.filter_eq_nil_iff]
    intro k hk
    simp [h k hk]
  simp [lastFinalOff, this]

lemma getLastD_map_const {α β : Type} {xs : List α} {c : α} (f : α → β)
    (h : ∀ x ∈ xs, x = c) (hne : xs ≠ []) : ∀ d, (xs.map f).getLastD d = f c := by
  induction xs with
  | nil => exact absurd rfl hne
  | cons a l ih =>
    intro d
    rcases l with _ | ⟨b, t⟩
    · have : a = c := h a (List.mem_cons_self a [])
      simp [this]
    · rw [List.map_cons, List.getLastD_cons]
      exact ih (fun x hx => h x (List.mem_cons_of_mem a hx)) (by simp) (f a)

/-- If the only final fragments a list contains are (copies of) `lf` and it
contains at least one, the tracked offset is `lf`'s offset. -/
lemma lastFinalOff_unique {S : List Pkt} {lf : Pkt} (hmem : ∃ k ∈ S, k.mf = false)
    (huni : ∀ k ∈ S, k.mf = false → k = lf) : lastFinalOff S = lf.off := by
  have hne : List.filter (fun k => !k.mf) S ≠ [] := by
    obtain ⟨k, hk, hkf⟩ := hmem
    intro hc
    have : k ∈ List.filter (fun k => !k.mf) S := by
      rw [List.mem_filter]
      exact ⟨hk, by simp [hkf]⟩
    rw [hc] at this
    exact List.not_mem_nil k this
  have hall : ∀ k ∈ List.filter (fun k => !k.mf) S, k = lf := by
    intro k hk
    rw [List.mem_filter] at hk
    exact huni k hk.1 (by simpa using hk.2)
  exact getLastD_map_const _ hall hne 0

/-- Two lists that are permutations of each other, the first strictly sorted
by offset and the second sorted by the (non-strict) sorting order, are equal. -/
lemma perm_sorted_strict_eq :
    ∀ {l1 l2 : List Pkt}, l1.Perm l2 → l1.Pairwise (fun a b => a.off < b.off) →
      l2.Pairwise fragLe → l1 = l2 := by
  intro l1
  induction l1 with
  | nil => intro l2 h _ _; exact (h.nil_eq).symm ▸ rfl
  | cons a t1 ih =>
    intro l2 h h1 h2
    rcases l2 with _ | ⟨b, t2⟩
    · exact absurd h.symm (by simp)
    have hab : a = b := by
      by_contra hne
      have hamem : a ∈ b :: t2 := h.subset (List.mem_cons_self a t1)
      have hat2 : a ∈ t2 := by
        rcases List.mem_cons.mp hamem with rfl | hx
        · exact absurd rfl hne
        · exact hx
      have hba : fragLe b a := (List.pairwise_cons.mp h2).1 a hat2
      have hbmem : b ∈ a :: t1 := h.symm.subset (List.mem_cons_self b t2)
      have hbt1 : b ∈ t1 := by
        rcases List.mem_cons.mp hbmem with rfl | hx
        · exact absurd rfl (fun he => hne he.symm)
        · exact hx
      have hab2 : a.off < b.off := (List.pairwise_cons.mp h1).1 b hbt1
      exact absurd hab2 (by simp only [fragLe] at hba; omega)
    subst hab
    have ht : t1.Perm t2 := h.cons_inv
    rw [ih ht (List.pairwise_cons.mp h1).2 (List.pairwise_cons.mp h2).2]

lemma foldl_append_payload (l : List Pkt) (s : List Nat) :
    l.foldl (fun acc k => acc ++ k.payload) s = s ++ (l.map fun k => k.payload).flatten := by
  induction l generalizing s with
  | nil => simp
  | cons k ks ih => simp [ih]

/-- A fragment chain's payloads concatenate to the payload from its cursor on. -/
lemma FragChain.join_eq {p : List Nat} :
    ∀ {i : Nat} {ks : List Pkt}, FragChain p i ks →
      (ks.map fun k => k.payload).flatten = p.drop i := by
  intro i ks h
  induction h with
  | last i len h8 hend =>
    simp only [List.map_cons, List.map_nil, List.flatten_cons, List.flatten_nil,
      List.append_nil]
    have : p.length - i ≤ len := by omega
    exact List.take_of_length_le (by simpa using this)
  | cons i len ks h8 hdvd hlt hch ih =>
    simp only [List.map_cons, List.flatten_cons]
    rw [ih]
    have h1 : List.drop (i + len) p = List.drop len (List.drop i p) := by
      rw [List.drop_drop]
    rw [h1, List.take_append_drop]

/-- Folding `fragIndicator.append` over a list of fragments whose individual
payloads and non-final total fit a uint16 yields exactly: `length` = total
non-final payload bytes, `offset` = offset of the last final fragment (0 if
none), and `frags` a permutation of the list, sorted whenever it is
nonempty. -/
lemma foldl_append_spec (S : List Pkt) (hpay : ∀ k ∈ S, k.payload.length < 65536)
    (hsum : nfSum S < 65536) :
    (S.foldl FragIndicator.append newFragIndicator).length = nfSum S ∧
    (S.foldl FragIndicator.append newFragIndicator).offset = lastFinalOff S ∧
    (S.foldl FragIndicator.append newFragIndicator).frags.Perm S ∧
    (S ≠ [] → (S.foldl FragIndicator.append newFragIndicator).frags.Sorted fragLe) := by
  induction S using List.reverseRecOn with
  | nil => exact ⟨rfl, rfl, List.Perm.refl _, fun h => absurd rfl h⟩
  | append_singleton S k ih =>
    have hS : ∀ j ∈ S, j.payload.length < 65536 :=
      fun j hj => hpay j (List.mem_append_left _ hj)
    have hk : k.payload.length < 65536 := hpay k (List.mem_append_right _ (List.mem_singleton_self k))
    have hsum' : nfSum S < 65536 := by
      rw [nfSum_append] at hsum
      omega
    obtain ⟨ihlen, ihoff, ihperm, ihsort⟩ := ih hS hsum'
    rw [List.foldl_concat]
    refine ⟨?_, ?_, ?_, ?_⟩
    · rw [nfSum_append] at hsum ⊢
      by_cases hmf : k.mf = true
      · have h2 : nfSum [k] = k.payload.length := by simp [nfSum, hmf]
        rw [h2] at hsum ⊢
        have hgoal : (FragIndicator.append (List.foldl FragIndicator.append newFragIndicator S)
            k).length = (nfSum S + k.payload.length % 65536) % 65536 := by
          simp [FragIndicator.append, hmf, ihlen]
        rw [hgoal, Nat.mod_eq_of_lt hk, Nat.mod_eq_of_lt (by omega)]
      · have h2 : nfSum [k] = 0 := by simp [nfSum, hmf]
        rw [h2] at hsum ⊢
        have hgoal : (FragIndicator.append (List.foldl FragIndicator.append newFragIndicator S)
            k).length = nfSum S := by
          simp [FragIndicator.append, hmf, ihlen]
        rw [hgoal]
        omega
    · by_cases hmf : k.mf = true
      · have hgoal : (FragIndicator.append (List.foldl FragIndicator.append newFragIndicator S)
            k).offset = lastFinalOff S := by
          simp [FragIndicator.append, hmf, ihoff]
        rw [hgoal, lastFinalOff_append_mf S k hmf]
      · have hgoal : (FragIndicator.append (List.foldl FragIndicator.append newFragIndicator S)
            k).offset = k.off := by
          simp [FragIndicator.append, hmf]
        rw [hgoal, lastFinalOff_append_final S k (by simpa using hmf)]
    · simp only [FragIndicator.append]
      exact (List.perm_insertionSort fragLe _).trans (ihperm.append_right [k])
    · intro _
      simp only [FragIndicator.append]
      exact List.sorted_insertionSort fragLe _

/-- Context bundle for a multi-fragment chain over an IPv4-sized payload. -/
lemma chain_ctx {p : List Nat} {F : List Pkt} (hp : p.length ≤ 65535)
    (hch : FragChain p 0 F) (hF2 : 2 ≤ F.length) :
    ∃ gs lf, F = gs ++ [lf] ∧ lf.mf = false ∧ lf.off = nfSum F / 8 ∧
      8 ≤ lf.payload.length ∧ 8 ∣ nfSum F ∧ 8 ≤ nfSum F ∧
      nfSum F + lf.payload.length = p.length ∧
      (∀ g ∈ gs, g.mf = true ∧ 8 ∣ g.payload.length ∧ 8 ≤ g.payload.length) ∧
      F.Nodup ∧ (∀ k ∈ F, k.payload.length ≤ 65535) ∧
      (∀ k ∈ F, k.mf = false → k = lf) ∧ 1 ≤ lf.off := by
  obtain ⟨gs, lf, hF, hmf, hoff, hlf8, hdvd, hsum, hgs⟩ := hch.decomp
  have hnfle : nfSum F ≤ p.length := by omega
  have hoff' : lf.off = nfSum F / 8 := by
    rw [hoff, Nat.zero_add]
    exact Nat.mod_eq_of_lt (by
      have : nfSum F / 8 ≤ nfSum F := Nat.div_le_self _ 8
      omega)
  have hgsne : gs ≠ [] := by
    intro hc
    rw [hF, hc] at hF2
    simp at hF2
  have hnf8 : 8 ≤ nfSum F := by
    rcases gs with _ | ⟨g, gs'⟩
    · exact absurd rfl hgsne
    · have hg := hgs g (List.mem_cons_self g gs')
      have hgF : g ∈ F := by rw [hF]; exact List.mem_append_left _ (List.mem_cons_self g gs')
      have := nfSum_member_le (S := F) hgF hg.1
      omega
  have hnodup : F.Nodup := by
    have hpw := (FragChain.pairwise hp hch).1
    exact hpw.imp (fun {a b} hab => by
      intro he
      rw [he] at hab
      omega)
  have hpay : ∀ k ∈ F, k.payload.length ≤ 65535 := by
    intro k hk
    have := hch.payload_le k hk
    omega
  have huni : ∀ k ∈ F, k.mf = false → k = lf := by
    intro k hk hkmf
    rw [hF] at hk
    rcases List.mem_append.mp hk with hk' | hk'
    · exact absurd hkmf (by rw [(hgs k hk').1]; simp)
    · exact List.mem_singleton.mp hk'
  refine ⟨gs, lf, hF, hmf, hoff', hlf8, hdvd, hnf8, by omega, hgs, hnodup, hpay, huni, ?_⟩
  rw [hoff']
  omega

/-- Every fragment of a multi-fragment chain is recognised as a fragment. -/
lemma chain_isFrag {p : List Nat} {F : List Pkt} (hp : p.length ≤ 65535)
    (hch : FragChain p 0 F) (hF2 : 2 ≤ F.length) : ∀ k ∈ F, k.isFrag = true := by
  obtain ⟨gs, lf, hF, hmf, hoff, _, _, hnf8, _, hgs, _, _, _, hlfoff⟩ := chain_ctx hp hch hF2
  intro k hk
  rw [hF] at hk
  rcases List.mem_append.mp hk with hk' | hk'
  · simp [Pkt.isFrag, (hgs k hk').1]
  · rw [List.mem_singleton.mp hk']
    simp only [Pkt.isFrag, Bool.or_eq_true, decide_eq_true_eq]
    right
    omega

/-- After absorbing a nonempty proper part of a multi-fragment chain the
indicator is not completed. -/
lemma part_not_completed {p : List Nat} {F : List Pkt} (hp : p.length ≤ 65535)
    (hch : FragChain p 0 F) (hF2 : 2 ≤ F.length) (S : List Pkt) (hsub : S.Subperm F)
    (hne : S ≠ []) (hproper : S.length < F.length) :
    (S.foldl FragIndicator.append newFragIndicator).isCompleted = false := by
  obtain ⟨gs, lf, hF, hmf, hoff, hlf8, hdvdF, hnf8, hsum, hgs, hnodup, hpay, huni, hlfoff⟩ :=
    chain_ctx hp hch hF2
  obtain ⟨l, hl1, hl2⟩ := hsub
  have hSsub : ∀ k ∈ S, k ∈ F := fun k hk => hl2.subset (hl1.symm.subset hk)
  have hSpay : ∀ k ∈ S, k.payload.length < 65536 := by
    intro k hk
    have := hpay k (hSsub k hk)
    omega
  have hnfSl : nfSum S = nfSum l := (nfSum_perm hl1).symm
  have hnfle : nfSum S ≤ nfSum F := by
    rw [hnfSl]
    exact nfSum_sublist_le hl2
  have hnfF : nfSum F ≤ 65535 := by
    have : nfSum F ≤ p.length := by omega
    omega
  obtain ⟨hlen, hoffS, -, -⟩ := foldl_append_spec S hSpay (by omega)
  have hSdvd : 8 ∣ nfSum S := by
    apply nfSum_dvd
    intro k hk hkmf
    have hkF := hSsub k hk
    rw [hF] at hkF
    rcases List.mem_append.mp hkF with hk' | hk'
    · exact (hgs k hk').2.1
    · rw [List.mem_singleton.mp hk'] at hkmf
      rw [hmf] at hkmf
      exact absurd hkmf (by simp)
  simp only [FragIndicator.isCompleted, hlen, hoffS]
  by_cases hfin : ∃ k ∈ S, k.mf = false
  · obtain ⟨k0, hk0S, hk0mf⟩ := hfin
    have hk0 : k0 = lf := huni k0 (hSsub k0 hk0S) hk0mf
    have hoffeq : lastFinalOff S = lf.off :=
      lastFinalOff_unique ⟨k0, hk0S, hk0mf⟩ (fun k hk hkmf => huni k (hSsub k hk) hkmf)
    have hlfl : lf ∈ l := hl1.symm.mem_iff.mp (hk0 ▸ hk0S)
    obtain ⟨x, hxF, hxl⟩ := sublist_lt_missing hl2 hnodup (by
      rw [hl1.length_eq]
      omega)
    have hxlf : x ≠ lf := fun he => hxl (he ▸ hlfl)
    have hxgs : x ∈ gs := by
      rw [hF] at hxF
      rcases List.mem_append.mp hxF with hx' | hx'
      · exact hx'
      · exact absurd (List.mem_singleton.mp hx') hxlf
    have hxprops := hgs x hxgs
    have hmiss := nfSum_sublist_missing hl2 hxF hxl
    rw [if_pos hxprops.1] at hmiss
    rw [hoffeq, hoff]
    have h8x : 8 ≤ x.payload.length := hxprops.2.2
    simp only [beq_eq_false_iff_ne, ne_eq]
    omega
  · push_neg at hfin
    have hallmf : ∀ k ∈ S, k.mf = true := by
      intro k hk
      rcases Bool.eq_false_or_eq_true k.mf with h | h
      · exact h
      · exact absurd h (hfin k hk)
    rw [lastFinalOff_all_mf hallmf]
    rcases S with _ | ⟨s0, S'⟩
    · exact absurd rfl hne
    · have hs0 : s0 ∈ s0 :: S' := List.mem_cons_self s0 S'
      have hs0mf := hallmf s0 hs0
      have h8 : 8 ≤ s0.payload.length := by
        have hs0F := hSsub s0 hs0
        rw [hF] at hs0F
        rcases List.mem_append.mp hs0F with hx' | hx'
        · exact (hgs s0 hx').2.2
        · rw [List.mem_singleton.mp hx'] at hs0mf
          rw [hmf] at hs0mf
          exact absurd hs0mf (by simp)
      have := nfSum_member_le hs0 hs0mf
      simp only [beq_eq_false_iff_ne, ne_eq]
      omega

/-- After absorbing all fragments of a multi-fragment chain (in any order) the
indicator is completed and concatenates to the original payload. -/
lemma full_completed {p : List Nat} {F : List Pkt} (hp : p.length ≤ 65535)
    (hch : FragChain p 0 F) (hF2 : 2 ≤ F.length) (S : List Pkt) (hperm : S.Perm F) :
    (S.foldl FragIndicator.append newFragIndicator).isCompleted = true ∧
    (S.foldl FragIndicator.append newFragIndicator).concatenate = some p := by
  obtain ⟨gs, lf, hF, hmf, hoff, hlf8, hdvdF, hnf8, hsum, hgs, hnodup, hpay, huni, hlfoff⟩ :=
    chain_ctx hp hch hF2
  have hSsub : ∀ k ∈ S, k ∈ F := fun k hk => hperm.subset hk
  have hSpay : ∀ k ∈ S, k.payload.length < 65536 := by
    intro k hk
    have := hpay k (hSsub k hk)
    omega
  have hnfS : nfSum S = nfSum F := nfSum_perm hperm
  have hnfF : nfSum F ≤ 65535 := by
    have : nfSum F ≤ p.length := by omega
    omega
  have hSne : S ≠ [] := by
    intro hc
    rw [hc] at hperm
    have := hperm.length_eq
    simp at this
    omega
  obtain ⟨hlen, hoffS, hfperm, hfsort⟩ := foldl_append_spec S hSpay (by omega)
  have hlfF : lf ∈ F := by
    rw [hF]
    exact List.mem_append_right _ (List.mem_singleton.mpr rfl)
  have hlfS : lf ∈ S := hperm.mem_iff.mpr hlfF
  have hoffeq : lastFinalOff S = lf.off :=
    lastFinalOff_unique ⟨lf, hlfS, hmf⟩ (fun k hk hkmf => huni k (hSsub k hk) hkmf)
  have hcompl : (S.foldl FragIndicator.append newFragIndicator).isCompleted = true := by
    simp only [FragIndicator.isCompleted, hlen, hoffS, hoffeq, hoff, hnfS]
    exact beq_self_eq_true _
  refine ⟨hcompl, ?_⟩
  have hfrageq : F = (S.foldl FragIndicator.append newFragIndicator).frags :=
    perm_sorted_strict_eq (hfperm.trans hperm).symm
      (FragChain.pairwise hp hch).1 (hfsort hSne)
  simp only [FragIndicator.concatenate, hcompl, if_pos]
  rw [foldl_append_payload, ← hfrageq, hch.join_eq, List.drop_zero, List.nil_append]

/-- Unfolding `defragRun` on a cons cell. -/
lemma defragRun_cons (st : Option FragIndicator) (k : Pkt) (ks : List Pkt) :
    defragRun st (k :: ks) = ((defragRun (defragAppend st k).1 ks).1,
      (defragAppend st k).2 :: (defragRun (defragAppend st k).1 ks).2) := rfl

/-- Running the defragmenter over any permutation-remainder `suf` of a
multi-fragment chain, with the flow state already holding the fragments of
`pre`, returns nothing until the last fragment, which completes to the whole
payload. -/
lemma defragRun_chain {p : List Nat} {F : List Pkt} (hp : p.length ≤ 65535)
    (hch : FragChain p 0 F) (hF2 : 2 ≤ F.length) :
    ∀ suf pre, (pre ++ suf).Perm F → suf ≠ [] →
      (defragRun (some (pre.foldl FragIndicator.append newFragIndicator)) suf).2 =
        List.replicate (suf.length - 1) none ++ [some p] := by
  intro suf
  induction suf with
  | nil => intro pre _ hne; exact absurd rfl hne
  | cons f suf' ih =>
    intro pre hperm _
    have hfF : f ∈ F := hperm.subset (List.mem_append_right pre (List.mem_cons_self f suf'))
    have hfrag : f.isFrag = true := chain_isFrag hp hch hF2 f hfF
    have hperm2 : ((pre ++ [f]) ++ suf').Perm F := by
      rw [List.append_assoc, List.singleton_append]
      exact hperm
    have hs2 : ((some (pre.foldl FragIndicator.append newFragIndicator)).getD
        newFragIndicator).append f =
        (pre ++ [f]).foldl FragIndicator.append newFragIndicator := by
      rw [Option.getD_some, List.foldl_concat]
    rcases suf' with _ | ⟨g, t⟩
    · have hfull : (pre ++ [f]).Perm F := by
        rw [List.append_nil] at hperm2
        exact hperm2
      obtain ⟨hcompl, hconc⟩ := full_completed hp hch hF2 (pre ++ [f]) hfull
      have hstep : defragAppend (some (pre.foldl FragIndicator.append newFragIndicator)) f =
          (none, some p) := by
        simp only [defragAppend, hfrag, if_pos, hs2, hcompl, if_true, hconc]
      rw [defragRun_cons, hstep]
      simp [defragRun]
    · have hsubp : (pre ++ [f]).Subperm F :=
        (List.sublist_append_left (pre ++ [f]) (g :: t)).subperm.trans hperm2.subperm
      have hproper : (pre ++ [f]).length < F.length := by
        have := hperm2.length_eq
        simp at this ⊢
        omega
      have hnc := part_not_completed hp hch hF2 (pre ++ [f]) hsubp (by simp) hproper
      have hstep : defragAppend (some (pre.foldl FragIndicator.append newFragIndicator)) f =
          (some ((pre ++ [f]).foldl FragIndicator.append newFragIndicator), none) := by
        simp only [defragAppend, hfrag, if_pos, hs2, hnc]
        simp
      have hih := ih (pre ++ [f]) hperm2 (by simp)
      rw [defragRun_cons, hstep]
      simp only []
      rw [hih]
      simp [List.replicate_succ]

/-- Feeding packets to a fresh flow slot behaves like feeding them to a fresh
indicator, as long as every packet is a fragment. -/
lemma defragRun_none_eq (l : List Pkt) (hall : ∀ k ∈ l, k.isFrag = true) :
    (defragRun none l).2 = (defragRun (some newFragIndicator) l).2 := by
  cases l with
  | nil => rfl
  | cons k ks =>
    have hk := hall k (List.mem_cons_self k ks)
    have : defragAppend none k = defragAppend (some newFragIndicator) k := by
      simp [defragAppend, hk]
    rw [defragRun_cons, defragRun_cons, this]

/-- C1, counterexample to the claim as stated.  With network header size 40
and MTU 48 (which satisfies MTU ≥ header + 8) and a 12-byte network payload,
the alignment rule cuts the fragment body to 8 and the minimum-tail rule then
cuts it to 0: the loop of `CreateFragmentPackets` never advances its cursor,
so fragmenting produces no fragment list at all (the helper
`fragLoop_stuck` shows the loop is stuck at cursor 0 for every fuel), and no
reassembled packet can exist. -/
theorem c1_roundtrip_counterexample :
    createFragments 40 48 (List.replicate 12 0) = none := by decide

/-- C1 (amended): for any transport-header bytes `T` and payload `P` with
MTU ≥ network header size + 16 and an IPv4-sized network payload
(`|T ++ P| ≤ 65535`), `CreateFragmentPackets` terminates, and feeding its
fragments to the `EasyDefragmenter` in any permutation yields no packet on
every call but the last, whose reassembled network payload is `T ++ P` —
so its application payload is exactly `P`. -/
theorem c1_fragment_roundtrip_amended (T P : List Nat) (hdr mtu : Nat)
    (hmtu : hdr + 16 ≤ mtu) (hlen : (T ++ P).length ≤ 65535) :
    (createFragments hdr mtu (T ++ P)).isSome = true ∧
    (∀ frags l, createFragments hdr mtu (T ++ P) = some frags → l.Perm frags →
      (defragRun none l).2 =
        List.replicate (l.length - 1) none ++ [some (T ++ P)] ∧
      (T ++ P).drop T.length = P) := by
  constructor
  · simp only [createFragments, createFragmentPackets]
    split_ifs with hbr
    · exact fragLoop_some hdr mtu (T ++ P) (by omega) _ 0 [] (by omega)
        (Or.inr (by omega)) (by omega)
    · rfl
  · intro frags l hf hl
    refine ⟨?_, List.drop_left T P⟩
    simp only [createFragments, createFragmentPackets] at hf
    split_ifs at hf with hbr
    · obtain ⟨ks, hres, hchain, hge2⟩ := fragLoop_chain hdr mtu (T ++ P) _ 0 [] frags hf
        (by omega) (Or.inr (by omega))
      rw [List.nil_append] at hres
      subst hres
      have h2 : 2 ≤ frags.length := hge2 (by omega)
      have hall : ∀ k ∈ l, k.isFrag = true := fun k hk =>
        chain_isFrag hlen hchain h2 k (hl.subset hk)
      rw [defragRun_none_eq l hall]
      have hlne : l ≠ [] := by
        intro hc
        rw [hc] at hl
        have := hl.length_eq
        simp at this
        omega
      exact defragRun_chain hlen hchain h2 l [] (by rw [List.nil_append]; exact hl) hlne
    · rw [Option.some_inj] at hf
      subst hf
      have hsing : l = [⟨0, false, T ++ P⟩] := List.perm_singleton.mp hl
      subst hsing
      simp [defragRun, defragRun_cons, defragAppend, Pkt.isFrag]

/-- C1 witness: header 20, MTU 52, transport header 20 bytes, application
payload 40 bytes.  The fragmenter splits the 60-byte network payload into a
32-byte aligned fragment and a 28-byte final fragment; feeding them to the
defragmenter in reversed order yields nothing, then the whole payload. -/
theorem c1_fragment_roundtrip_witness :
    (defragRun none [⟨4, false, List.drop 32 (List.replicate 20 1 ++ List.replicate 40 2)⟩,
        ⟨0, true, List.take 32 (List.replicate 20 1 ++ List.replicate 40 2)⟩]).2 =
      List.replicate 1 none ++ [some (List.replicate 20 1 ++ List.replicate 40 2)] ∧
    (List.replicate 20 1 ++ List.replicate 40 2).drop 20 = List.replicate 40 2 := by
  have h := c1_fragment_roundtrip_amended (List.replicate 20 1) (List.replicate 40 2) 20 52
    (by decide) (by decide)
  have h2 := h.2
    [⟨0, true, List.take 32 (List.replicate 20 1 ++ List.replicate 40 2)⟩,
     ⟨4, false, List.drop 32 (List.replicate 20 1 ++ List.replicate 40 2)⟩]
    [⟨4, false, List.drop 32 (List.replicate 20 1 ++ List.replicate 40 2)⟩,
     ⟨0, true, List.take 32 (List.replicate 20 1 ++ List.replicate 40 2)⟩]
    (by decide) (by decide)
  exact h2

/-- C2 (confirmed): any run of `CreateFragmentPackets` (any fuel) that
produces two or more fragments gives every fragment except the last a network
payload length divisible by 8, and the last fragment a network payload of at
least 8 bytes. -/
theorem c2_fragment_alignment (hdr mtu : Nat) (p : List Nat) (fuel : Nat) (frags : List Pkt)
    (h : createFragmentPackets hdr mtu p fuel = some frags) (h2 : 2 ≤ frags.length) :
    (∀ k ∈ frags.dropLast, 8 ∣ k.payload.length) ∧
    ∃ lf, frags.getLast? = some lf ∧ 8 ≤ lf.payload.length := by
  obtain ⟨hchain, -⟩ := createFragmentPackets_chain hdr mtu p fuel frags h h2
  obtain ⟨gs, lf, hF, hmf, -, hlf8, -, -, hgs⟩ := hchain.decomp
  subst hF
  constructor
  · intro k hk
    rw [List.dropLast_concat] at hk
    exact (hgs k hk).2.1
  · exact ⟨lf, by rw [List.getLast?_concat], hlf8⟩

/-- C2 witness: header 20, MTU 52, payload 60 bytes: fragments of 32 (aligned)
and 28 (final, ≥ 8) bytes. -/
theorem c2_fragment_alignment_witness :
    8 ∣ (Pkt.mk 0 true (List.replicate 32 0)).payload.length ∧
    8 ≤ (Pkt.mk 4 false (List.replicate 28 0)).payload.length := by
  have h := c2_fragment_alignment 20 52 (List.replicate 60 0) 61
    [⟨0, true, List.replicate 32 0⟩, ⟨4, false, List.replicate 28 0⟩] (by decide) (by decide)
  obtain ⟨hall, lf, hlast, h8⟩ := h
  have hlf : lf = ⟨4, false, List.replicate 28 0⟩ := by
    have h2 : ([⟨0, true, List.replicate 32 0⟩, ⟨4, false, List.replicate 28 0⟩] :
        List Pkt).getLast? = some ⟨4, false, List.replicate 28 0⟩ := by decide
    exact (Option.some_inj.mp (h2.symm.trans hlast)).symm
  exact ⟨hall _ (by decide), hlf ▸ h8⟩

/-- C10, counterexample to the claim as stated.  Header 20 and MTU 28 satisfy
MTU ≥ header + 8, but on a 12-byte payload the loop of
`CreateFragmentPackets` reduces the per-iteration length to 0 (align cuts
`min(8,12)=8` to 8, then the minimum-tail rule subtracts 8) and the cursor
never advances: no fuel suffices (`fragLoop_stuck`), so the embedding returns
no fragment list. -/
theorem c10_termination_counterexample :
    createFragments 20 28 (List.replicate 12 0) = none := by decide

/-- C10 (amended): `CreateFragmentPackets` terminates for every input whose
fragment size satisfies MTU ≥ header + 16; whenever it actually fragments
(two or more fragments), every loop iteration advanced the cursor by at least
8 bytes (every fragment body is at least 8 bytes). -/
theorem c10_termination_amended (hdr mtu : Nat) (p : List Nat) (h16 : hdr + 16 ≤ mtu) :
    ∃ frags, createFragments hdr mtu p = some frags ∧
      (2 ≤ frags.length → ∀ k ∈ frags, 8 ≤ k.payload.length) := by
  have hsome : (createFragments hdr mtu p).isSome = true := by
    simp only [createFragments, createFragmentPackets]
    split_ifs with hbr
    · exact fragLoop_some hdr mtu p (by omega) _ 0 [] (by omega) (Or.inr (by omega)) (by omega)
    · rfl
  obtain ⟨frags, hf⟩ := Option.isSome_iff_exists.mp hsome
  refine ⟨frags, hf, ?_⟩
  intro h2 k hk
  obtain ⟨hchain, -⟩ := createFragmentPackets_chain hdr mtu p (p.length + 1) frags hf h2
  obtain ⟨gs, lf, hF, -, -, hlf8, -, -, hgs⟩ := hchain.decomp
  subst hF
  rcases List.mem_append.mp hk with hk' | hk'
  · exact (hgs k hk').2.2
  · rw [List.mem_singleton.mp hk']
    exact hlf8

/-- C10 witness: header 20, MTU 52 (≥ header + 16) on a 60-byte payload
terminates with fragments of 32 and 28 bytes, each at least 8 bytes. -/
theorem c10_termination_witness :
    createFragments 20 52 (List.replicate 60 0) =
      some [⟨0, true, List.replicate 32 0⟩, ⟨4, false, List.replicate 28 0⟩] ∧
    8 ≤ (Pkt.mk 4 false (List.replicate 28 0)).payload.length := by
  obtain ⟨frags, hf, himp⟩ := c10_termination_amended 20 52 (List.replicate 60 0) (by decide)
  have he : createFragments 20 52 (List.replicate 60 0) =
      some [⟨0, true, List.replicate 32 0⟩, ⟨4, false, List.replicate 28 0⟩] := by decide
  have hfr : frags = [⟨0, true, List.replicate 32 0⟩, ⟨4, false, List.replicate 28 0⟩] := by
    rw [he] at hf
    exact (Option.some_inj.mp hf).symm
  subst hfr
  exact ⟨he, himp (by decide) _ (by decide)⟩

/-- C3, counterexample to the claim as stated: `isCompleted` does not require
a final (MF clear) fragment to have been appended.  After appending a single
non-final fragment of 4 bytes the indicator has `length = 4`, `offset = 0`,
and `length / 8 == offset` holds, so `isCompleted` reports true although the
only appended fragment has MF set (and a fresh indicator, `length = 0` and
`offset = 0`, is likewise reported complete). -/
theorem c3_isCompleted_counterexample :
    (newFragIndicator.append ⟨0, true, [0, 0, 0, 0]⟩).isCompleted = true ∧
    (Pkt.mk 0 true [0, 0, 0, 0]).mf = true ∧ newFragIndicator.isCompleted = true := by
  decide

/-- C3 (amended): after appending any sequence of fragments (individual
payloads and non-final total fitting a uint16), `isCompleted` returns true
iff the accumulated non-final payload byte count divided by 8 equals the
offset of the last appended final fragment (0 when no final fragment was
appended) — with no requirement that a final fragment was ever seen. -/
theorem c3_isCompleted_amended (hs : List Pkt) (hpay : ∀ k ∈ hs, k.payload.length < 65536)
    (hsum : nfSum hs < 65536) :
    ((hs.foldl FragIndicator.append newFragIndicator).isCompleted = true) ↔
      nfSum hs / 8 = lastFinalOff hs := by
  obtain ⟨hlen, hoff, -, -⟩ := foldl_append_spec hs hpay hsum
  simp only [FragIndicator.isCompleted, hlen, hoff, beq_iff_eq]

/-- C3 witness: an 8-byte non-final fragment followed by a final fragment at
offset 1 satisfies the characterisation and is reported complete. -/
theorem c3_isCompleted_witness :
    (([⟨0, true, List.replicate 8 0⟩, ⟨1, false, List.replicate 8 0⟩] : List Pkt).foldl
      FragIndicator.append newFragIndicator).isCompleted = true :=
  (c3_isCompleted_amended _ (by decide) (by decide)).mpr (by decide)

/-! ### Connection state machine (conn.go) -/

/-- `clientIndicator` (conn.go lines 17-21): per-peer TCP state.  `seq` is
the next sequence number to place on outbound packets (`tx_seq`), `ack` the
expected acknowledgment (`rx_ack`); both uint32.  The cipher handle is passed
separately where needed. -/
structure ClientIndicator where
  seq : Nat
  ack : Nat
deriving DecidableEq, Repr

/-- `Conn.handshakeSYN` (conn.go lines 196-259), state effect: a SYN frame is
built with the client's current `seq`, then `client.seq++` (uint32) and the
IPv4 id counter `c.id++` (uint16).  Returns (new client, new id, sequence
number placed on the SYN frame). -/
def handshakeSYN (cl : ClientIndicator) (id : Nat) : ClientIndicator × Nat × Nat :=
  (⟨(cl.seq + 1) % 4294967296, cl.ack⟩, (id + 1) % 65536, cl.seq)

/-- `Conn.WriteTo` (conn.go lines 557-666) for a known peer, on the frame
view: encrypt the plaintext, serialise TCP header (`tcpHdr` bytes, built with
the client's current `seq`) plus ciphertext as the network payload, fragment
it against the MTU, emit every fragment with the current IPv4 id, then
advance `client.seq` by the ciphertext length (uint32) and `c.id` by one
(uint16).  Returns (new client, new id, frames as (IPv4 id, fragment) pairs,
sequence number placed on the TCP header); `none` when fragmentation never
terminates. -/
def writeTo (encrypt : List Nat → List Nat) (ipHdrLen : Nat) (tcpHdr : List Nat) (mtu : Nat)
    (cl : ClientIndicator) (id : Nat) (p : List Nat) :
    Option (ClientIndicator × Nat × List (Nat × Pkt) × Nat) :=
  let contents := encrypt p
  match createFragments ipHdrLen mtu (tcpHdr ++ contents) with
  | none => none
  | some frs =>
      some (⟨(cl.seq + contents.length % 4294967296) % 4294967296, cl.ack⟩,
            (id + 1) % 65536, frs.map (fun k => (id, k)), cl.seq)

/-- A sequence of successful `WriteTo` calls on the same established
connection: returns the final client state, final IPv4 id and the list of TCP
sequence numbers placed on the data packets, in order. -/
def runWrites (encrypt : List Nat → List Nat) (ipHdrLen : Nat) (tcpHdr : List Nat) (mtu : Nat) :
    ClientIndicator → Nat → List (List Nat) → Option (ClientIndicator × Nat × List Nat)
  | cl, id, [] => some (cl, id, [])
  | cl, id, p :: ps =>
    match writeTo encrypt ipHdrLen tcpHdr mtu cl id p with
    | none => none
    | some (cl1, id1, _, s) =>
      match runWrites encrypt ipHdrLen tcpHdr mtu cl1 id1 ps with
      | none => none
      | some (cl2, id2, ss) => some (cl2, id2, s :: ss)

/-- `Conn.ReadFrom` (conn.go lines 389-486), data path for a known peer: with
`expectedAck = seq + uint32(len(payload))` the ack is replaced exactly when
`expectedAck > client.ack` or `0xFFFFFFFF - seq < uint32(len(payload))`
(conn.go lines 465-469); the payload is then decrypted, `copy(p, contents)`
fills the caller's buffer, and `len(contents)` is returned.  Result: (new
client, returned count, new buffer contents); `none` if decryption fails. -/
def readFromData (decrypt : List Nat → Option (List Nat)) (cl : ClientIndicator) (seq : Nat)
    (payload : List Nat) (buf : List Nat) : Option (ClientIndicator × Nat × List Nat) :=
  let expectedAck := (seq + payload.length % 4294967296) % 4294967296
  let cl1 : ClientIndicator :=
    if cl.ack < expectedAck ∨ 4294967295 - seq < payload.length % 4294967296
    then ⟨cl.seq, expectedAck⟩ else cl
  match decrypt payload with
  | none => none
  | some contents =>
      some (cl1, contents.length,
        contents.take buf.length ++ buf.drop (min buf.length contents.length))

/-- The identity cipher (the `plain` crypt): ciphertext = plaintext. -/
def idCrypt (l : List Nat) : List Nat := l

/-- A length-expanding cipher: appends a 16-byte authentication tag, as an
AEAD crypt does. -/
def padCrypt (l : List Nat) : List Nat := l ++ List.replicate 16 0

/-- The identity decryption (the `plain` crypt), always succeeding. -/
def idDecrypt (l : List Nat) : Option (List Nat) := some l

/-- `Listener.Accept` (conn.go lines 769-830) on receipt of a SYN whose
source address renders as `src`: a known source returns `(nil, nil)` (no
connection, no error) and leaves the client table unchanged; an unknown
source opens a connection, drives the SYN+ACK and installs the source.
Result: (connection?, error?, new client table). -/
def listenerAccept (clients : List String) (src : String) :
    Option Unit × Option Unit × List String :=
  if src ∈ clients then (none, none, clients)
  else (some (), none, clients ++ [src])

/-- The write-deadline timer of `Conn.WriteTo` (conn.go lines 643-652):
deadlines are wallclock instants (0 = the zero `time.Time`).  If the write
deadline is set, a timer goroutine sleeps for `c.readDeadline.Sub(time.Now())`
(when positive) and then delivers a timeout; it therefore fires at
`max readDeadline now`.  Returns the instant the timeout is delivered, or
`none` when no timer is armed. -/
def writeTimerFireTime (readDeadline writeDeadline now : Int) : Option Int :=
  if writeDeadline = 0 then none else some (max readDeadline now)

/-- C4 (confirmed): on a data packet from a known peer, `rx_ack` becomes
`(seq + len(payload)) mod 2^32` exactly when that value exceeds the current
`rx_ack` or `0xFFFFFFFF - seq < len(payload)` (which holds precisely when
`seq + len(payload)` wraps past `2^32 - 1`), and is left unchanged otherwise.
In particular a wrapped ack is installed, not suppressed. -/
theorem c4_ack_update (decrypt : List Nat → Option (List Nat)) (cl : ClientIndicator)
    (seq : Nat) (payload buf : List Nat) (cl1 : ClientIndicator) (n : Nat) (b1 : List Nat)
    (hseq : seq < 4294967296) (hp : payload.length < 4294967296)
    (h : readFromData decrypt cl seq payload buf = some (cl1, n, b1)) :
    cl1.ack = (if (seq + payload.length) % 4294967296 > cl.ack ∨
        4294967296 ≤ seq + payload.length
      then (seq + payload.length) % 4294967296 else cl.ack) ∧
    ((4294967295 - seq < payload.length) ↔ 4294967296 ≤ seq + payload.length) := by
  have hmod : payload.length % 4294967296 = payload.length := Nat.mod_eq_of_lt hp
  simp only [readFromData, hmod] at h
  cases hd : decrypt payload with
  | none => rw [hd] at h; exact absurd h (by simp)
  | some contents =>
    rw [hd, Option.some_inj, Prod.mk.injEq, Prod.mk.injEq] at h
    obtain ⟨hcl, -, -⟩ := h
    constructor
    · rw [← hcl]
      by_cases hC : cl.ack < (seq + payload.length) % 4294967296 ∨
          4294967295 - seq < payload.length
      · rw [if_pos hC, if_pos (by omega)]
      · rw [if_neg hC, if_neg (by omega)]
    · omega

/-- C4 witness: `seq = 2^32 - 3`, 4-byte payload, current ack `2^32 - 6`.
The sum wraps to 1, which is smaller than the current ack, yet the
wraparound test installs it. -/
theorem c4_ack_update_witness :
    (ClientIndicator.mk 0 1).ack = (if (4294967293 + 4) % 4294967296 > 4294967290 ∨
        4294967296 ≤ 4294967293 + 4
      then (4294967293 + 4) % 4294967296 else 4294967290) :=
  (c4_ack_update idDecrypt ⟨0, 4294967290⟩ 4294967293 [7, 7, 7, 7] [] ⟨0, 1⟩ 4 []
    (by decide) (by decide) (by decide)).1

/-- C9 (confirmed): a successful data `ReadFrom(buf)` returns
`n = len(plaintext)` even when that exceeds `len(buf)`; the caller's buffer
keeps its length and receives only the first `len(buf)` plaintext bytes
(`copy` semantics), so `n` can exceed the bytes actually stored. -/
theorem c9_readfrom_count (decrypt : List Nat → Option (List Nat)) (cl : ClientIndicator)
    (seq : Nat) (payload buf contents : List Nat) (cl1 : ClientIndicator) (n : Nat)
    (b1 : List Nat) (hd : decrypt payload = some contents)
    (h : readFromData decrypt cl seq payload buf = some (cl1, n, b1)) :
    n = contents.length ∧ b1.length = buf.length ∧
    b1 = contents.take buf.length ++ buf.drop (min buf.length contents.length) := by
  simp only [readFromData, hd, Option.some_inj, Prod.mk.injEq] at h
  obtain ⟨-, hn, hb⟩ := h
  refine ⟨hn.symm, ?_, hb.symm⟩
  rw [← hb]
  simp only [List.length_append, List.length_take, List.length_drop]
  omega

/-- C9 witness: a 5-byte plaintext read into a 3-byte buffer returns 5, while
the buffer keeps 3 bytes and holds the first 3 plaintext bytes. -/
theorem c9_readfrom_count_witness :
    (5 : Nat) = ([1, 2, 3, 4, 5] : List Nat).length ∧
    ([1, 2, 3] : List Nat).length = ([9, 9, 9] : List Nat).length ∧
    ([1, 2, 3] : List Nat) =
      ([1, 2, 3, 4, 5] : List Nat).take 3 ++ ([9, 9, 9] : List Nat).drop (min 3 5) :=
  c9_readfrom_count idDecrypt ⟨0, 0⟩ 0 [1, 2, 3, 4, 5] [9, 9, 9] [1, 2, 3, 4, 5] ⟨0, 5⟩ 5
    [1, 2, 3] (by decide) (by decide)

/-- Characterisation of a run of successful writes: the `k`-th data packet
carries sequence `S0 + (sum of the first k ciphertext lengths) mod 2^32`, and
`tx_seq` ends at `S0 +` the total ciphertext length, mod 2^32. -/
lemma runWrites_seqs (encrypt : List Nat → List Nat) (ipHdrLen : Nat) (tcpHdr : List Nat)
    (mtu : Nat) :
    ∀ (ps : List (List Nat)) (cl0 : ClientIndicator) (id0 : Nat) (clN : ClientIndicator)
      (idN : Nat) (seqs : List Nat), cl0.seq < 4294967296 →
      runWrites encrypt ipHdrLen tcpHdr mtu cl0 id0 ps = some (clN, idN, seqs) →
      seqs.length = ps.length ∧
      (∀ k, k < ps.length → seqs.getD k 0 =
        (cl0.seq + ((ps.take k).map fun q => (encrypt q).length).sum) % 4294967296) ∧
      clN.seq = (cl0.seq + (ps.map fun q => (encrypt q).length).sum) % 4294967296 := by
  intro ps
  induction ps with
  | nil =>
    intro cl0 id0 clN idN seqs hcl h
    simp only [runWrites, Option.some_inj, Prod.mk.injEq] at h
    obtain ⟨hcl0, -, hseqs⟩ := h
    refine ⟨by rw [← hseqs]; rfl, fun k hk => absurd hk (by simp), ?_⟩
    rw [← hcl0]
    simp only [List.map_nil, List.sum_nil, Nat.add_zero]
    exact (Nat.mod_eq_of_lt hcl).symm
  | cons q ps' ih =>
    intro cl0 id0 clN idN seqs hcl h
    simp only [runWrites] at h
    cases hw : writeTo encrypt ipHdrLen tcpHdr mtu cl0 id0 q with
    | none => rw [hw] at h; exact absurd h (by simp)
    | some r =>
      obtain ⟨cl1, id1, fr, s⟩ := r
      rw [hw] at h
      dsimp only at h
      simp only [writeTo] at hw
      cases hcf : createFragments ipHdrLen mtu (tcpHdr ++ encrypt q) with
      | none => rw [hcf] at hw; exact absurd hw (by simp)
      | some frs =>
        rw [hcf, Option.some_inj, Prod.mk.injEq, Prod.mk.injEq, Prod.mk.injEq] at hw
        obtain ⟨hcl1, -, -, hs⟩ := hw
        cases hr : runWrites encrypt ipHdrLen tcpHdr mtu cl1 id1 ps' with
        | none => rw [hr] at h; exact absurd h (by simp)
        | some r2 =>
          obtain ⟨cl2, id2, ss⟩ := r2
          rw [hr] at h
          simp only [Option.some_inj, Prod.mk.injEq] at h
          obtain ⟨hcl2, -, hseqs⟩ := h
          have hcl1seq : cl1.seq = (cl0.seq + (encrypt q).length % 4294967296) % 4294967296 := by
            rw [← hcl1]
          obtain ⟨ihlen, ihget, ihfin⟩ := ih cl1 id1 cl2 id2 ss
            (by rw [hcl1seq]; exact Nat.mod_lt _ (by omega)) hr
          refine ⟨?_, ?_, ?_⟩
          · rw [← hseqs]
            simp only [List.length_cons, ihlen]
          · intro k hk
            rw [← hseqs]
            cases k with
            | zero =>
              simp only [List.getD_cons_zero, List.take_zero, List.map_nil, List.sum_nil,
                Nat.add_zero]
              rw [← hs]
              exact (Nat.mod_eq_of_lt hcl).symm
            | succ k' =>
              simp only [List.getD_cons_succ, List.take_succ_cons, List.map_cons,
                List.sum_cons]
              rw [ihget k' (by simpa using hk), hcl1seq]
              omega
          · rw [← hcl2]
            rw [ihfin, hcl1seq]
            simp only [List.map_cons, List.sum_cons]
            omega

/-- C5, counterexample to the claim as stated.  `WriteTo` advances `tx_seq`
by the CIPHERTEXT length, not the plaintext length: with a cipher that adds a
16-byte tag, two successful 5-byte writes from post-handshake seq 1 place
sequences 1 and 22 on the wire, while the claim's `S0 + l1` with plaintext
length `l1 = 5` predicts 6. -/
theorem c5_seq_counterexample :
    runWrites padCrypt 20 (List.replicate 20 1) 1500 ⟨1, 0⟩ 0
      [List.replicate 5 0, List.replicate 5 0] =
      some (⟨43, 0⟩, 2, [1, 22]) ∧ (22 : Nat) ≠ (1 + 5) % 4294967296 := by decide

/-- C5 (amended): across any sequence of successful writes with ciphertext
lengths `c1..cn`, the TCP sequence numbers placed on the packets are
`S0, S0+c1, S0+c1+c2, ...` mod 2^32 where `S0` is the post-handshake sequence
(`tx_seq` ends at `S0 + c1+...+cn` mod 2^32); each SYN advances `tx_seq` by
exactly 1, so a client (initial seq 0) has `S0 = 1`.  Equal to the claim's
plaintext lengths exactly when the cipher preserves length. -/
theorem c5_seq_monotonicity_amended (encrypt : List Nat → List Nat) (ipHdrLen : Nat)
    (tcpHdr : List Nat) (mtu : Nat) (cl0 : ClientIndicator) (id0 : Nat)
    (ps : List (List Nat)) (clN : ClientIndicator) (idN : Nat) (seqs : List Nat)
    (hcl : cl0.seq < 4294967296)
    (h : runWrites encrypt ipHdrLen tcpHdr mtu cl0 id0 ps = some (clN, idN, seqs)) :
    (seqs.length = ps.length ∧
     (∀ k, k < ps.length → seqs.getD k 0 =
       (cl0.seq + ((ps.take k).map fun q => (encrypt q).length).sum) % 4294967296) ∧
     clN.seq = (cl0.seq + (ps.map fun q => (encrypt q).length).sum) % 4294967296) ∧
    (handshakeSYN cl0 id0).1.seq = (cl0.seq + 1) % 4294967296 ∧
    (handshakeSYN ⟨0, 0⟩ id0).1.seq = 1 :=
  ⟨runWrites_seqs encrypt ipHdrLen tcpHdr mtu ps cl0 id0 clN idN seqs hcl h, rfl, rfl⟩

/-- C5 witness: with the identity cipher, two 5-byte writes from
post-handshake seq 1 place sequences 1 and 6, ending with `tx_seq = 11`. -/
theorem c5_seq_witness :
    ([1, 6] : List Nat).getD 1 0 =
      (1 + (([List.replicate 5 0, List.replicate 5 0].take 1).map
        fun q => (idCrypt q).length).sum) % 4294967296 ∧
    (ClientIndicator.mk 11 0).seq =
      (1 + (([List.replicate 5 0, List.replicate 5 0]).map fun q => (idCrypt q).length).sum) %
        4294967296 := by
  have h := c5_seq_monotonicity_amended idCrypt 20 (List.replicate 20 1) 1500 ⟨1, 0⟩ 0
    [List.replicate 5 0, List.replicate 5 0] ⟨11, 0⟩ 2 [1, 6] (by decide) (by decide)
  exact ⟨h.1.2.1 1 (by decide), h.1.2.2⟩

/-- C6, counterexample to the claim as stated.  A data write that fragments
into two IPv4 frames advances `c.id` by 1 (once per `WriteTo`), not once per
frame: from id 5, a 16-byte write over MTU 52 emits 2 frames and leaves the
counter at 6, not `(5 + 2) mod 2^16`. -/
theorem c6_ipid_counterexample :
    (writeTo idCrypt 20 (List.replicate 20 1) 52 ⟨1, 0⟩ 5 (List.replicate 16 0)).map
      (fun r => (r.2.1, r.2.2.1.length)) = some (6, 2) ∧ (6 : Nat) ≠ (5 + 2) % 65536 := by
  decide

/-- C6 (amended): every outbound IPv4 datagram — a handshake packet or one
`WriteTo` call — advances `ip_id` by exactly one (uint16); all fragments of a
single write share the same identification field rather than each advancing
the counter. -/
theorem c6_ipid_amended (encrypt : List Nat → List Nat) (ipHdrLen : Nat) (tcpHdr : List Nat)
    (mtu : Nat) (cl : ClientIndicator) (id : Nat) (p : List Nat) (cl1 : ClientIndicator)
    (id1 : Nat) (frames : List (Nat × Pkt)) (s : Nat)
    (h : writeTo encrypt ipHdrLen tcpHdr mtu cl id p = some (cl1, id1, frames, s)) :
    id1 = (id + 1) % 65536 ∧ (∀ fr ∈ frames, fr.1 = id) ∧
    (handshakeSYN cl id).2.1 = (id + 1) % 65536 := by
  simp only [writeTo] at h
  cases hcf : createFragments ipHdrLen mtu (tcpHdr ++ encrypt p) with
  | none => rw [hcf] at h; exact absurd h (by simp)
  | some frs =>
    rw [hcf, Option.some_inj, Prod.mk.injEq, Prod.mk.injEq, Prod.mk.injEq] at h
    obtain ⟨-, hid, hfr, -⟩ := h
    refine ⟨hid.symm, ?_, rfl⟩
    intro fr hfr2
    rw [← hfr] at hfr2
    obtain ⟨k, -, hk⟩ := List.mem_map.mp hfr2
    rw [← hk]

/-- C6 witness: the two-fragment write from id 5 yields new id `(5+1) % 2^16`
and both frames carry identification 5. -/
theorem c6_ipid_witness :
    (6 : Nat) = (5 + 1) % 65536 ∧
    ((5 : Nat), Pkt.mk 0 true ((List.replicate 20 1 ++ List.replicate 16 0).take 24)).1 = 5 := by
  have h := c6_ipid_amended idCrypt 20 (List.replicate 20 1) 52 ⟨1, 0⟩ 5
    (List.replicate 16 0) ⟨17, 0⟩ 6
    [(5, Pkt.mk 0 true ((List.replicate 20 1 ++ List.replicate 16 0).take 24)),
     (5, Pkt.mk 3 false ((List.replicate 20 1 ++ List.replicate 16 0).drop 24))] 1 (by decide)
  exact ⟨h.1, h.2.1 _ (by decide)⟩

/-- C7 (confirmed): after a Listener accepts source `X`, a second SYN from
`X` returns `(nil, nil)` — no connection and no error — and the client table
is unchanged (no new entry is installed). -/
theorem c7_duplicate_syn (clients : List String) (src : String) (h : src ∉ clients) :
    (listenerAccept clients src).1 = some () ∧
    listenerAccept ((listenerAccept clients src).2.2) src =
      (none, none, (listenerAccept clients src).2.2) := by
  simp only [listenerAccept, if_neg h]
  exact ⟨trivial, by rw [if_pos (List.mem_append_right clients (List.mem_singleton.mpr rfl))]⟩

/-- C7 witness: a fresh listener accepts `10.0.0.1:7890`, and the second SYN
from the same source yields `(nil, nil)` with the table untouched. -/
theorem c7_duplicate_syn_witness :
    (listenerAccept [] ("10.0.0.1:7890")).1 = some () ∧
    listenerAccept ((listenerAccept [] ("10.0.0.1:7890")).2.2) ("10.0.0.1:7890") =
      (none, none, (listenerAccept [] ("10.0.0.1:7890")).2.2) :=
  c7_duplicate_syn [] ("10.0.0.1:7890") (List.not_mem_nil _)

/-- C8 (code bug, conn.go line 646): the timer raced against a write is armed
when the WRITE deadline is set but sleeps for `readDeadline - now`: with read
deadline unset (zero time) and a write deadline 10 ticks in the future
(now = 100, write deadline 110), the timeout is delivered at once (100),
before the write deadline — while the claim (and the spec's intended design)
require the timer to be governed by the write deadline (fire at 110).  The
fire time follows the read deadline (110 when the read deadline is 110) and
depends on the write deadline only through the zero test. -/
theorem c8_write_deadline_bug :
    writeTimerFireTime 0 110 100 = some 100 ∧
    writeTimerFireTime 110 110 100 = some 110 ∧
    writeTimerFireTime 0 0 100 = none ∧ (100 : Int) < 110 := by decide
